import Mathlib

/-!
# Verification of the pleco hyperdrive crawler

Shallow embedding of the two implementation variants of the crawler:

* `src/index.js` — the Beaker variant: `pleco`, `CrawlQueue` (private fields
  `#crawlSet` and `#queue`), `scrapeHyperAddresses`, `extractKey`,
  `filterScrapable`, `filterMounts`.
* the daemon variant (CLI script) — module-global `crawled` set and `queue`
  array, `addQueue`, `crawlHyper`, `exhaustQueue`, `scrapeURIs`, `extractKey`.

JavaScript strings are modelled as `List Char`; a JS `Set` of strings and a JS
array are both modelled as `List (List Char)` (a `Set` keeps insertion order
and never holds duplicates, which the operations below preserve).
-/

/-- Character class `[0-9a-f]` — one lowercase hexadecimal character. -/
def isLowerHex (c : Char) : Bool :=
  ('0' ≤ c && c ≤ '9') || ('a' ≤ c && c ≤ 'f')

/-- Tests whether `p` is a prefix of `s` (character by character). -/
def strStartsWith : List Char → List Char → Bool
  | [], _ => true
  | _ :: _, [] => false
  | p :: ps, c :: cs => p == c && strStartsWith ps cs

/-- Tests whether `e` is a suffix of `s`. -/
def strEndsWith (e s : List Char) : Bool :=
  strStartsWith e.reverse s.reverse

theorem strStartsWith_iff (p s : List Char) :
    strStartsWith p s = true ↔ ∃ r, s = p ++ r := by
  induction p generalizing s with
  | nil => simp [strStartsWith]
  | cons a as ih =>
    cases s with
    | nil => simp [strStartsWith]
    | cons c cs =>
      simp only [strStartsWith, Bool.and_eq_true, beq_iff_eq, ih, List.cons_append,
        List.cons.injEq]
      constructor
      · rintro ⟨rfl, r, rfl⟩; exact ⟨r, rfl, rfl⟩
      · rintro ⟨r, rfl, rfl⟩; exact ⟨rfl, r, rfl⟩

theorem strEndsWith_iff (e s : List Char) :
    strEndsWith e s = true ↔ ∃ r, s = r ++ e := by
  rw [strEndsWith, strStartsWith_iff]
  constructor
  · rintro ⟨r, h⟩
    refine ⟨r.reverse, ?_⟩
    have := congrArg List.reverse h
    simpa using this
  · rintro ⟨r, rfl⟩
    exact ⟨r.reverse, by simp⟩

/-- The six characters of the `hyper:` scheme test (`/^hyper:/` in both
variants of `extractKey`). -/
def hyperScheme : List Char := ['h', 'y', 'p', 'e', 'r', ':']

/-- The eight characters `hyper://`, the full URI marker used by the
scraper regular expression. -/
def hyperMarker : List Char := ['h', 'y', 'p', 'e', 'r', ':', '/', '/']

/-- Validation pattern `/^[0-9a-f]{64}$/` — the whole string is exactly 64 lowercase hex
characters (`ED25519_KEY` in the daemon variant). -/
def matchesExactHex64 (s : List Char) : Bool :=
  s.length == 64 && s.all isLowerHex

/-- Function `extractKey` — identical in both variants:

    const key = uri.match(/^hyper:/) ? uri.slice(8, 72) : uri.slice(0, 64);
    return key.match(/^[0-9a-f]{64}$/) ? key : null;

`slice(8, 72)` is `(drop 8).take 64` and `slice(0, 64)` is `take 64`
(JS `slice` clamps out-of-range indices). -/
def extractKey (uri : List Char) : Option (List Char) :=
  let key := if strStartsWith hyperScheme uri then (uri.drop 8).take 64
             else uri.take 64
  if matchesExactHex64 key then some key else none

/-- The scraper pattern `hyper:\/\/[0-9a-f]{64}` matches at the head of `s`:
`s` starts with `hyper://` followed by at least 64 lowercase hex characters.
(`HYPER_URI_SCRAPER` in the daemon variant; the pattern has fixed length 72.) -/
def isHyperMatch (s : List Char) : Bool :=
  strStartsWith hyperMarker s &&
    ((s.drop 8).take 64).length == 64 && ((s.drop 8).take 64).all isLowerHex

/-- Scanner for `text.match(/hyper:\/\/[0-9a-f]{64}/g)`.  JS global matching
finds the leftmost match, emits the 72 matched characters, and resumes
immediately after them; a position with no match advances by one.  `skip`
counts characters still to pass over from an already-emitted match (the
recursion is structural on the text; `scrapeAux_skip` below recovers the
direct resume-after-the-match formulation). -/
def scrapeAux : Nat → List Char → List (List Char)
  | _, [] => []
  | 0, c :: cs =>
    if isHyperMatch (c :: cs) then
      (c :: cs).take 72 :: scrapeAux 71 cs
    else
      scrapeAux 0 cs
  | skip + 1, _ :: cs => scrapeAux skip cs

/-- Function `scrapeHyperAddresses` (src/index.js):

    return text.match(/hyper:\/\/[0-9a-f]{64}/g) || [];
-/
def scrapeHyperAddresses (text : List Char) : List (List Char) :=
  scrapeAux 0 text

/-- Alias `scrapeURIs` — the daemon variant's name for the same function (its body
is character-for-character the same regular-expression match). -/
def scrapeURIs : List Char → List (List Char) := scrapeHyperAddresses

theorem scrapeAux_skip (skip : Nat) (s : List Char) :
    scrapeAux skip s = scrapeAux 0 (s.drop skip) := by
  induction s generalizing skip with
  | nil => cases skip <;> simp [scrapeAux]
  | cons c cs ih =>
    cases skip with
    | zero => simp
    | succ n => simpa [scrapeAux] using ih n

theorem scrapeHyperAddresses_nil : scrapeHyperAddresses [] = [] := rfl

theorem scrapeHyperAddresses_cons (c : Char) (cs : List Char) :
    scrapeHyperAddresses (c :: cs) =
      if isHyperMatch (c :: cs) then
        (c :: cs).take 72 :: scrapeHyperAddresses ((c :: cs).drop 72)
      else
        scrapeHyperAddresses cs := by
  simp only [scrapeHyperAddresses, scrapeAux, List.drop_succ_cons]
  rw [scrapeAux_skip 71 cs]

/-- Start positions (0-based) of the matches reported by
`scrapeHyperAddresses`, mirroring its scan. -/
def scrapePosAux : Nat → List Char → List Nat
  | _, [] => []
  | 0, c :: cs =>
    if isHyperMatch (c :: cs) then
      0 :: (scrapePosAux 71 cs).map (· + 72)
    else
      (scrapePosAux 0 cs).map (· + 1)
  | skip + 1, _ :: cs => scrapePosAux skip cs

def scrapePositions (text : List Char) : List Nat :=
  scrapePosAux 0 text

theorem scrapePosAux_skip (skip : Nat) (s : List Char) :
    scrapePosAux skip s = scrapePosAux 0 (s.drop skip) := by
  induction s generalizing skip with
  | nil => cases skip <;> simp [scrapePosAux]
  | cons c cs ih =>
    cases skip with
    | zero => simp
    | succ n => simpa [scrapePosAux] using ih n

theorem scrapePositions_cons (c : Char) (cs : List Char) :
    scrapePositions (c :: cs) =
      if isHyperMatch (c :: cs) then
        0 :: (scrapePositions ((c :: cs).drop 72)).map (· + 72)
      else
        (scrapePositions cs).map (· + 1) := by
  simp only [scrapePositions, scrapePosAux, List.drop_succ_cons]
  rw [scrapePosAux_skip 71 cs]

/-- The characters of `node_modules`. -/
def nodeModules : List Char :=
  ['n', 'o', 'd', 'e', '_', 'm', 'o', 'd', 'u', 'l', 'e', 's']

/-- One JavaScript regex dot with no `s` flag: it matches a single UTF-16
code unit that is not a line terminator (LF, CR, U+2028, U+2029).  On a text
of Unicode scalar values this means any character except those four and
except supplementary-plane characters — a supplementary character occupies
two code units, so a one-code-unit dot followed by the literal `git` can
never cover it (and a match starting inside its surrogate pair cannot be
preceded by `/` or the string start). -/
def isRegexDot (c : Char) : Bool :=
  !(c == '\n' || c == '\r' || c == '\u2028' || c == '\u2029') &&
    decide (c.toNat < 65536)

/-- The alternation `(node_modules|.git)` matches at the head of `s`.  The
dot in `.git` is an unescaped regular-expression dot: it matches one
dot-matchable character (see `isRegexDot`), after which the literal `git`
must follow. -/
def exclMatchAt (s : List Char) : Bool :=
  strStartsWith nodeModules s ||
    (match s with
     | c :: rest => isRegexDot c && strStartsWith ['g', 'i', 't'] rest
     | [] => false)

/-- Scan for `/(^|\/)(node_modules|.git)/`: try the alternation at every
position that is the start of the string (`^`) or immediately preceded by a
slash (`\/`).  `allowed` records whether the current position qualifies. -/
def exclScan : Bool → List Char → Bool
  | allowed, [] => allowed && exclMatchAt []
  | allowed, c :: cs => (allowed && exclMatchAt (c :: cs)) || exclScan (c == '/') cs

/-- True when `entry.match(/(^|\/)(node_modules|.git)/)` succeeds. -/
def isExcludedPath (s : List Char) : Bool := exclScan true s

/-- The seven literal suffixes of the end-anchored extension pattern
`\.(html?|md|xml|js(on)?|css)$` (the daemon variant's `SCRAPABLE_EXTS`,
`\.(html?|md|json|xml|js|css)$`, denotes the same language). -/
def allowedExts : List (List Char) :=
  [ ['.', 'h', 't', 'm'], ['.', 'h', 't', 'm', 'l'], ['.', 'm', 'd'],
    ['.', 'x', 'm', 'l'], ['.', 'j', 's'], ['.', 'j', 's', 'o', 'n'],
    ['.', 'c', 's', 's'] ]

/-- True when `entry.match(/\.(html?|md|xml|js(on)?|css)$/)` succeeds: the pattern is
anchored at the end and fixed, so it matches exactly when the path ends with
one of the seven literal extensions. -/
def hasScrapableExt (s : List Char) : Bool :=
  allowedExts.any (fun e => strEndsWith e s)

/-- Function `filterScrapable` (src/index.js):

    return entries
      .filter(entry => !entry.match(/(^|\/)(node_modules|.git)/))
      .filter(entry => entry.match(/\.(html?|md|xml|js(on)?|css)$/));
-/
def filterScrapable (entries : List (List Char)) : List (List Char) :=
  (entries.filter (fun entry => !isExcludedPath entry)).filter hasScrapableExt

/-- The state of `CrawlQueue` (src/index.js): the private `#crawlSet` (a JS
`Set`, insertion-ordered, duplicate-free) and the private `#queue` array
(`push` appends at the end, `pop` removes the last element). -/
structure CrawlQueue where
  crawlSet : List (List Char)
  queue : List (List Char)
deriving DecidableEq

def emptyQueue : CrawlQueue := ⟨[], []⟩

/-- One iteration of the loop body of `CrawlQueue.add` for a single `uri`:

    const key = extractKey(uri);
    if (key == null) continue;
    if (this.#queue.includes(key)) continue;
    if (this.#crawlSet.has(key)) continue;
    this.#queue.push(key);
    ++count;
-/
def addOne (q : CrawlQueue) (count : Nat) (uri : List Char) : CrawlQueue × Nat :=
  match extractKey uri with
  | none => (q, count)
  | some key =>
    if q.queue.contains key then (q, count)
    else if q.crawlSet.contains key then (q, count)
    else ({ q with queue := q.queue ++ [key] }, count + 1)

/-- Method `CrawlQueue.add(...uriList)` (src/index.js) = `addQueue(...uriList)` (the
daemon variant, acting on the module-global `queue` and `crawled`): both run
the loop of `addOne` over the argument list and return the count of keys
actually pushed. -/
def addAll (q : CrawlQueue) (uriList : List (List Char)) : CrawlQueue × Nat :=
  match uriList with
  | [] => (q, 0)
  | uri :: rest =>
    let p := addOne q 0 uri
    let r := addAll p.1 rest
    (r.1, p.2 + r.2)

/-- One step of the `CrawlQueue` iterator (src/index.js):

    while (this.#queue.length) {
      const key = this.#queue.pop();
      this.#crawlSet.add(key);
      yield key;
    }

`pop` removes the LAST element of the array; `Set.add` is a no-op on an
element already present. -/
def drain (q : CrawlQueue) : Option (List Char × CrawlQueue) :=
  match q.queue.getLast? with
  | none => none
  | some key =>
    some (key,
      { crawlSet := if q.crawlSet.contains key then q.crawlSet
                    else q.crawlSet ++ [key],
        queue := q.queue.dropLast })

/-- An externally observable frontier operation: one `add(...uris)` call or
one draining step of the iterator. -/
inductive QOp
  | add : List (List Char) → QOp
  | drainOp : QOp

/-- Run a sequence of frontier operations, recording the keys returned by
the draining steps in order. -/
def runOpsTrace (q : CrawlQueue) : List QOp → CrawlQueue × List (List Char)
  | [] => (q, [])
  | QOp.add uris :: ops => runOpsTrace (addAll q uris).1 ops
  | QOp.drainOp :: ops =>
    match drain q with
    | none => runOpsTrace q ops
    | some (key, q1) =>
      let r := runOpsTrace q1 ops
      (r.1, key :: r.2)

/-- The drive-accessor capability the crawl loop uses, for a synthetic
environment: acquiring a drive handle plus `readdir("/", {recursive:true})`
(one combined fallible operation, both live in the same `try` block),
`readFile`, and `stat` restricted to its `.mount?.key` field.  `none` models
the operation throwing. -/
structure DriveEnv where
  listEntries : List Char → Option (List (List Char))
  readFile : List Char → List Char → Option (List Char)
  statMount : List Char → List Char → Option (Option (List Char))

/-- Function `filterMounts(drive, entries)` (src/index.js): stat every entry, push
`stat.mount.key` when present, swallow per-entry stat failures. -/
def filterMounts (env : DriveEnv) (key : List Char)
    (entries : List (List Char)) : List (List Char) :=
  entries.foldl
    (fun mounts entry =>
      match env.statMount key entry with
      | some (some k) => mounts ++ [k]
      | _ => mounts)
    []

/-- The inner loop body of `pleco` for one scrape target:

    try {
      const text = await drive.readFile(target);
      const uriList = scrapeHyperAddresses(text);
      queue.add(...uriList);
    } catch (scrapeError) {}
-/
def scrapeStep (env : DriveEnv) (key : List Char) (q : CrawlQueue)
    (target : List Char) : CrawlQueue :=
  match env.readFile key target with
  | none => q
  | some text => (addAll q (scrapeHyperAddresses text)).1

/-- The crawl body of `pleco` for one drained key (src/index.js, the outer
`try { ... } catch (crawlError) {}`): list the drive, scrape every
scrapable target, then queue the mounts; a listing failure abandons the key
with no state change.  (The optional best-effort `mount` step touches only
the index drive and the `mounted` counter, never the frontier, and is
omitted.) -/
def crawlKey (env : DriveEnv) (key : List Char) (q : CrawlQueue) : CrawlQueue :=
  match env.listEntries key with
  | none => q
  | some entries =>
    let q1 := (filterScrapable entries).foldl (scrapeStep env key) q
    (addAll q1 (filterMounts env key entries)).1

/-- The `for (const key of queue)` loop of `pleco`, fuelled: drain one key,
crawl it, repeat until the frontier is empty (or fuel runs out). -/
def crawlLoop (env : DriveEnv) : Nat → CrawlQueue → CrawlQueue
  | 0, q => q
  | fuel + 1, q =>
    match drain q with
    | none => q
    | some (key, q1) => crawlLoop env fuel (crawlKey env key q1)

/-- The daemon variant's module-global working memory:

    const crawled = new Set;
    const queue = [];
-/
structure PState where
  crawled : List (List Char)
  queue : List (List Char)
deriving DecidableEq

/-- Function `addQueue(...uriList)` of the daemon variant — the same loop as
`CrawlQueue.add`, acting on the global `queue`/`crawled` pair. -/
def addQueue (st : PState) (uriList : List (List Char)) : PState × Nat :=
  let r := addAll ⟨st.crawled, st.queue⟩ uriList
  (⟨r.1.crawlSet, r.1.queue⟩, r.2)

/-- Function `crawlHyper(key)` of the daemon variant:

    try {
      const drive = await client.drive.get({ key });
      const entries = (await drive.readdir("/", { recursive: true }))
        .filter(entry => entry.match(SCRAPABLE_EXTS));
      for (const entry of entries) {
        try {
          const text = await drive.readFile(entry, { encoding: "utf8" });
          const uriList = scrapeURIs(text);
          const count = addQueue(...uriList);
        } catch (error) { ... }
      }
    } catch (error) { ... }
    finally { crawled.add(key); }

Note: entries are filtered by extension only (no `node_modules`/`.git`
exclusion in this variant), and the key is added to `crawled` only in the
`finally` block, AFTER all scraping of the drive has finished.
The body of the per-entry `try { ... } catch` is `scrapeEntry` below. -/
def scrapeEntry (env : DriveEnv) (key : List Char) (st : PState)
    (entry : List Char) : PState :=
  match env.readFile key entry with
  | none => st
  | some text => (addQueue st (scrapeURIs text)).1

def crawlHyper (env : DriveEnv) (key : List Char) (st : PState) : PState :=
  let st1 :=
    match env.listEntries key with
    | none => st
    | some entries =>
      (entries.filter hasScrapableExt).foldl (scrapeEntry env key) st
  { st1 with crawled := if st1.crawled.contains key then st1.crawled
                        else st1.crawled ++ [key] }

/-- Function `exhaustQueue()` of the daemon variant, fuelled, returning the sequence
of keys popped (hence crawled) in order:

    while (queue.length) {
      const key = queue.pop();
      await crawlHyper(key);
    }
-/
def exhaustQueue (env : DriveEnv) : Nat → PState → PState × List (List Char)
  | 0, st => (st, [])
  | fuel + 1, st =>
    match st.queue.getLast? with
    | none => (st, [])
    | some key =>
      let st1 := crawlHyper env key ⟨st.crawled, st.queue.dropLast⟩
      let r := exhaustQueue env fuel st1
      (r.1, key :: r.2)

/-- The key of synthetic drive `A`. -/
def keyA : List Char := List.replicate 64 'a'

/-- The key of synthetic drive `B`. -/
def keyB : List Char := List.replicate 64 'b'

/-- A key no synthetic drive answers for. -/
def keyC : List Char := List.replicate 64 'c'

/-- The single scrapable entry of the synthetic drives. -/
def pathMd : List Char := ['x', '.', 'm', 'd']

/-- Synthetic two-drive cycle: drive `A`'s one file references `B`, drive
`B`'s one file references `A`; no other drive resolves; no mounts. -/
def envCycle : DriveEnv where
  listEntries := fun key =>
    if key = keyA ∨ key = keyB then some [pathMd] else none
  readFile := fun key path =>
    if key = keyA ∧ path = pathMd then some (hyperMarker ++ keyB)
    else if key = keyB ∧ path = pathMd then some (hyperMarker ++ keyA)
    else none
  statMount := fun _ _ => none

/-- Synthetic self-referencing drive: drive `A`'s one file contains drive
`A`'s own address. -/
def envSelf : DriveEnv where
  listEntries := fun key => if key = keyA then some [pathMd] else none
  readFile := fun key path =>
    if key = keyA ∧ path = pathMd then some (hyperMarker ++ keyA)
    else none
  statMount := fun _ _ => none

theorem contains_iff (l : List (List Char)) (a : List Char) :
    l.contains a = true ↔ a ∈ l := by simp

/-- The Frontier invariant of spec §3, on the `CrawlQueue` state: `pending`
(`#queue`) and `visited` (`#crawlSet`) hold no duplicates and are disjoint. -/
def QInv (q : CrawlQueue) : Prop :=
  q.queue.Nodup ∧ q.crawlSet.Nodup ∧ ∀ k ∈ q.queue, k ∉ q.crawlSet

theorem addOne_crawlSet (q : CrawlQueue) (c : Nat) (u : List Char) :
    (addOne q c u).1.crawlSet = q.crawlSet := by
  unfold addOne
  cases extractKey u with
  | none => rfl
  | some key =>
    by_cases h1 : key ∈ q.queue <;> by_cases h2 : key ∈ q.crawlSet <;>
      simp [h1, h2]

theorem addOne_cases (q : CrawlQueue) (c : Nat) (u : List Char) :
    ((addOne q c u).1 = q ∧ (addOne q c u).2 = c) ∨
      ∃ key, extractKey u = some key ∧ key ∉ q.queue ∧ key ∉ q.crawlSet ∧
        (addOne q c u).1 = { q with queue := q.queue ++ [key] } ∧
        (addOne q c u).2 = c + 1 := by
  unfold addOne
  cases hu : extractKey u with
  | none => exact Or.inl ⟨rfl, rfl⟩
  | some key =>
    by_cases h1 : key ∈ q.queue
    · exact Or.inl (by simp [h1])
    · by_cases h2 : key ∈ q.crawlSet
      · exact Or.inl (by simp [h1, h2])
      · exact Or.inr ⟨key, rfl, h1, h2, by simp [h1, h2], by simp [h1, h2]⟩

theorem addOne_inv (q : CrawlQueue) (c : Nat) (u : List Char) (h : QInv q) :
    QInv (addOne q c u).1 := by
  rcases addOne_cases q c u with ⟨h1, _⟩ | ⟨key, _, hkq, hkc, h1, _⟩
  · rw [h1]; exact h
  · rw [h1]
    obtain ⟨hnd, hcs, hdisj⟩ := h
    refine ⟨?_, hcs, ?_⟩
    · rw [List.nodup_append]; simpa using ⟨hnd, hkq⟩
    · intro k hk
      rcases List.mem_append.mp hk with hk | hk
      · exact hdisj k hk
      · simp only [List.mem_singleton] at hk; subst hk; exact hkc

theorem addOne_queue_mem (q : CrawlQueue) (c : Nat) (u : List Char)
    (k : List Char) (hk : k ∈ (addOne q c u).1.queue) :
    k ∈ q.queue ∨ extractKey u = some k := by
  rcases addOne_cases q c u with ⟨h1, _⟩ | ⟨key, hu, _, _, h1, _⟩
  · rw [h1] at hk; exact Or.inl hk
  · rw [h1] at hk
    rcases List.mem_append.mp hk with hk | hk
    · exact Or.inl hk
    · simp only [List.mem_singleton] at hk; subst hk; exact Or.inr hu

theorem addOne_queue_length (q : CrawlQueue) (u : List Char) :
    (addOne q 0 u).1.queue.length = q.queue.length + (addOne q 0 u).2 := by
  rcases addOne_cases q 0 u with ⟨h1, h2⟩ | ⟨key, _, _, _, h1, h2⟩ <;>
    simp [h1, h2]

theorem addAll_crawlSet (q : CrawlQueue) (us : List (List Char)) :
    (addAll q us).1.crawlSet = q.crawlSet := by
  induction us generalizing q with
  | nil => rfl
  | cons u rest ih => simp only [addAll]; rw [ih, addOne_crawlSet]

theorem addAll_inv (q : CrawlQueue) (us : List (List Char)) (h : QInv q) :
    QInv (addAll q us).1 := by
  induction us generalizing q with
  | nil => exact h
  | cons u rest ih => exact ih _ (addOne_inv q 0 u h)

theorem addAll_queue_mem (q : CrawlQueue) (us : List (List Char))
    (k : List Char) (hk : k ∈ (addAll q us).1.queue) :
    k ∈ q.queue ∨ ∃ u ∈ us, extractKey u = some k := by
  induction us generalizing q with
  | nil => exact Or.inl hk
  | cons u rest ih =>
    rcases ih (addOne q 0 u).1 hk with hk' | ⟨u', hu', hx⟩
    · rcases addOne_queue_mem q 0 u k hk' with h | h
      · exact Or.inl h
      · exact Or.inr ⟨u, List.mem_cons_self u rest, h⟩
    · exact Or.inr ⟨u', List.mem_cons_of_mem u hu', hx⟩

theorem addAll_queue_length (q : CrawlQueue) (us : List (List Char)) :
    (addAll q us).1.queue.length = q.queue.length + (addAll q us).2 := by
  induction us generalizing q with
  | nil => rfl
  | cons u rest ih =>
    simp only [addAll]
    rw [ih (addOne q 0 u).1, addOne_queue_length]
    omega

theorem drain_none_iff (q : CrawlQueue) : drain q = none ↔ q.queue = [] := by
  unfold drain
  cases h : q.queue.getLast? with
  | none => simpa using List.getLast?_eq_none_iff.mp h
  | some key =>
    simp only [reduceCtorEq, false_iff]
    intro hq
    rw [hq] at h
    simp at h

theorem drain_spec {q : CrawlQueue} {key : List Char} {q' : CrawlQueue}
    (h : drain q = some (key, q')) :
    q.queue = q'.queue ++ [key] ∧
      (∀ a, a ∈ q'.crawlSet ↔ a ∈ q.crawlSet ∨ a = key) ∧
      (q.crawlSet.Nodup → q'.crawlSet.Nodup) := by
  unfold drain at h
  cases hl : q.queue.getLast? with
  | none => rw [hl] at h; exact absurd h (by simp)
  | some k =>
    rw [hl] at h
    simp only [Option.some.injEq, Prod.mk.injEq] at h
    obtain ⟨h1, h2⟩ := h
    subst h1
    subst h2
    obtain ⟨l', hq⟩ := List.getLast?_eq_some_iff.mp hl
    refine ⟨by simp [hq, List.dropLast_concat], ?_, ?_⟩
    · intro a
      by_cases hc : k ∈ q.crawlSet <;> by_cases ha : a = k <;>
        simp [hc, ha]
    · intro hnd
      by_cases hc : k ∈ q.crawlSet
      · simpa [hc] using hnd
      · have hc2 : ¬(q.crawlSet.contains k = true) := by simpa [contains_iff] using hc
        rw [if_neg hc2, List.nodup_append]
        simpa [hc] using hnd

theorem drain_inv {q : CrawlQueue} {key : List Char} {q' : CrawlQueue}
    (h : drain q = some (key, q')) (hq : QInv q) : QInv q' := by
  obtain ⟨hqueue, hmem, hndc⟩ := drain_spec h
  obtain ⟨hnd, hcs, hdisj⟩ := hq
  rw [hqueue] at hnd hdisj
  rw [List.nodup_append] at hnd
  have hkey : key ∉ q'.queue := by
    intro hk
    exact hnd.2.2 hk (by simp)
  refine ⟨hnd.1, hndc hcs, ?_⟩
  intro k hk hk'
  rcases (hmem k).mp hk' with hc | rfl
  · exact hdisj k (List.mem_append_left _ hk) hc
  · exact hkey hk

theorem drain_key_mem_crawlSet {q : CrawlQueue} {key : List Char} {q' : CrawlQueue}
    (h : drain q = some (key, q')) : key ∈ q'.crawlSet :=
  ((drain_spec h).2.1 key).mpr (Or.inr rfl)

theorem drain_key_mem_queue {q : CrawlQueue} {key : List Char} {q' : CrawlQueue}
    (h : drain q = some (key, q')) : key ∈ q.queue := by
  rw [(drain_spec h).1]; simp

theorem isHyperMatch_iff (s : List Char) :
    isHyperMatch s = true ↔
      ∃ hex rest, s = hyperMarker ++ hex ++ rest ∧ hex.length = 64 ∧
        hex.all isLowerHex = true := by
  unfold isHyperMatch
  simp only [Bool.and_eq_true, beq_iff_eq, strStartsWith_iff]
  constructor
  · rintro ⟨⟨⟨r, rfl⟩, hlen⟩, hall⟩
    have hdrop : (hyperMarker ++ r).drop 8 = r := List.drop_left hyperMarker r
    rw [hdrop] at hlen hall
    refine ⟨r.take 64, r.drop 64, ?_, hlen, hall⟩
    rw [List.append_assoc, List.take_append_drop]
  · rintro ⟨hex, rest, rfl, hlen, hall⟩
    have hdrop : (hyperMarker ++ (hex ++ rest)).drop 8 = hex ++ rest :=
      List.drop_left hyperMarker (hex ++ rest)
    rw [List.append_assoc, hdrop]
    have htake : (hex ++ rest).take 64 = hex := by
      rw [← hlen]; exact List.take_left hex rest
    rw [htake]
    exact ⟨⟨⟨hex ++ rest, rfl⟩, hlen⟩, hall⟩

/-- The joint declarative characterization of the scraper scan, proved by
strong induction on the text length: the reported matches are exactly the
72-character pattern occurrences at the reported positions; positions are
strictly left-to-right and at least 72 apart (non-overlapping); and every
position where the pattern matches is covered by some reported match. -/
theorem scrape_props : ∀ (n : Nat) (s : List Char), s.length ≤ n →
    scrapeHyperAddresses s = (scrapePositions s).map (fun p => (s.drop p).take 72) ∧
      (∀ p ∈ scrapePositions s, isHyperMatch (s.drop p) = true) ∧
      (scrapePositions s).Pairwise (fun a b => a + 72 ≤ b) ∧
      (∀ p, isHyperMatch (s.drop p) = true →
        ∃ q ∈ scrapePositions s, q ≤ p ∧ p < q + 72) := by
  intro n
  induction n with
  | zero =>
    intro s hs
    have hnil : s = [] := List.eq_nil_of_length_eq_zero (Nat.le_zero.mp hs)
    subst hnil
    refine ⟨rfl, by simp [scrapePositions, scrapePosAux],
      by simp [scrapePositions, scrapePosAux], ?_⟩
    intro p hp
    rw [List.drop_nil] at hp
    exact absurd hp (by decide)
  | succ n ih =>
    intro s hs
    cases s with
    | nil =>
      refine ⟨rfl, by simp [scrapePositions, scrapePosAux],
        by simp [scrapePositions, scrapePosAux], ?_⟩
      intro p hp
      rw [List.drop_nil] at hp
      exact absurd hp (by decide)
    | cons c cs =>
      have hcs : cs.length ≤ n := by
        simpa using Nat.succ_le_succ_iff.mp (by simpa using hs)
      by_cases hm : isHyperMatch (c :: cs) = true
      · have htl : ((c :: cs).drop 72).length ≤ n := by
          simp only [List.length_drop, List.length_cons]
          omega
        obtain ⟨ih1, ih2, ih3, ih4⟩ := ih ((c :: cs).drop 72) htl
        have hshift : ∀ p : Nat, (c :: cs).drop (p + 72) = ((c :: cs).drop 72).drop p := by
          intro p
          rw [List.drop_drop, Nat.add_comm]
        refine ⟨?_, ?_, ?_, ?_⟩
        · rw [scrapeHyperAddresses_cons, scrapePositions_cons, if_pos hm, if_pos hm]
          simp only [List.map_cons, List.map_map, List.drop_zero]
          refine congrArg _ ?_
          rw [ih1]
          refine List.map_congr_left ?_
          intro p _
          simp only [Function.comp_apply]
          rw [hshift p]
        · rw [scrapePositions_cons, if_pos hm]
          intro p hp
          rcases List.mem_cons.mp hp with rfl | hp
          · simpa using hm
          · obtain ⟨q, hq, rfl⟩ := List.mem_map.mp hp
            rw [hshift q]
            exact ih2 q hq
        · rw [scrapePositions_cons, if_pos hm]
          rw [List.pairwise_cons]
          constructor
          · intro b hb
            obtain ⟨q, _, rfl⟩ := List.mem_map.mp hb
            omega
          · rw [List.pairwise_map]
            exact ih3.imp (by omega)
        · rw [scrapePositions_cons, if_pos hm]
          intro p hp
          by_cases hlt : p < 72
          · exact ⟨0, List.mem_cons_self _ _, Nat.zero_le p, by omega⟩
          · have hp72 : p - 72 + 72 = p := by omega
            rw [← hp72, hshift (p - 72)] at hp
            obtain ⟨q, hq, hle, hcov⟩ := ih4 (p - 72) hp
            refine ⟨q + 72, List.mem_cons_of_mem _ (List.mem_map.mpr ⟨q, hq, rfl⟩),
              by omega, by omega⟩
      · obtain ⟨ih1, ih2, ih3, ih4⟩ := ih cs hcs
        refine ⟨?_, ?_, ?_, ?_⟩
        · rw [scrapeHyperAddresses_cons, scrapePositions_cons, if_neg hm, if_neg hm]
          rw [ih1, List.map_map]
          refine List.map_congr_left ?_
          intro p _
          simp [List.drop_succ_cons]
        · rw [scrapePositions_cons, if_neg hm]
          intro p hp
          obtain ⟨q, hq, rfl⟩ := List.mem_map.mp hp
          rw [List.drop_succ_cons]
          exact ih2 q hq
        · rw [scrapePositions_cons, if_neg hm]
          rw [List.pairwise_map]
          exact ih3.imp (by omega)
        · rw [scrapePositions_cons, if_neg hm]
          intro p hp
          cases p with
          | zero => rw [List.drop_zero] at hp; exact absurd hp hm
          | succ p =>
            rw [List.drop_succ_cons] at hp
            obtain ⟨q, hq, hle, hcov⟩ := ih4 p hp
            exact ⟨q + 1, List.mem_map.mpr ⟨q, hq, rfl⟩, by omega, by omega⟩

/-- The head of `w` matches the alternation `(node_modules|.git)`, stated
declaratively: `w` begins with the literal `node_modules`, or with one
dot-matchable character (any character except the four line terminators and
the supplementary plane, see `isRegexDot`) followed by the literal `git`. -/
def ExclHere (w : List Char) : Prop :=
  (∃ r, w = nodeModules ++ r) ∨
    ∃ c r, isRegexDot c = true ∧ w = c :: ('g' :: 'i' :: 't' :: []) ++ r

theorem not_exclHere_nil : ¬ ExclHere [] := by
  rintro (⟨r, h⟩ | ⟨c, r, -, h⟩) <;> simp [nodeModules] at h

theorem exclMatchAt_iff (w : List Char) : exclMatchAt w = true ↔ ExclHere w := by
  unfold exclMatchAt ExclHere
  cases w with
  | nil => simp [strStartsWith_iff, nodeModules]
  | cons a rest =>
    simp only [Bool.or_eq_true, Bool.and_eq_true, strStartsWith_iff]
    constructor
    · rintro (⟨r, hr⟩ | ⟨hd, r, hr⟩)
      · exact Or.inl ⟨r, hr⟩
      · exact Or.inr ⟨a, r, hd, by rw [hr]; rfl⟩
    · rintro (⟨r, hr⟩ | ⟨c, r, hc, hr⟩)
      · exact Or.inl ⟨r, hr⟩
      · simp only [List.cons_append, List.cons.injEq] at hr
        obtain ⟨rfl, hr2⟩ := hr
        exact Or.inr ⟨hc, r, hr2⟩

theorem exclScan_iff : ∀ (s : List Char) (allowed : Bool),
    exclScan allowed s = true ↔
      ((allowed = true ∧ ExclHere s) ∨ ∃ u w, s = u ++ '/' :: w ∧ ExclHere w) := by
  intro s
  induction s with
  | nil =>
    intro allowed
    simp only [exclScan]
    constructor
    · intro h
      rw [Bool.and_eq_true] at h
      exact absurd h.2 (by decide)
    · rintro (⟨_, h⟩ | ⟨u, w, h, _⟩)
      · exact absurd h not_exclHere_nil
      · exact absurd h (by simp)
  | cons c cs ih =>
    intro allowed
    simp only [exclScan, Bool.or_eq_true, Bool.and_eq_true, exclMatchAt_iff, ih]
    constructor
    · rintro (⟨ha, hh⟩ | (⟨hc, hh⟩ | ⟨u, w, rfl, hh⟩))
      · exact Or.inl ⟨ha, hh⟩
      · rw [beq_iff_eq] at hc
        subst hc
        exact Or.inr ⟨[], cs, rfl, hh⟩
      · exact Or.inr ⟨c :: u, w, rfl, hh⟩
    · rintro (⟨ha, hh⟩ | ⟨u, w, he, hh⟩)
      · exact Or.inl ⟨ha, hh⟩
      · cases u with
        | nil =>
          simp only [List.nil_append, List.cons.injEq] at he
          obtain ⟨rfl, rfl⟩ := he
          exact Or.inr (Or.inl ⟨by simp, hh⟩)
        | cons a u =>
          simp only [List.cons_append, List.cons.injEq] at he
          obtain ⟨rfl, rfl⟩ := he
          exact Or.inr (Or.inr ⟨u, w, rfl, hh⟩)

/-- Predicate `isExcludedPath`, declaratively: the exclusion alternation matches at the
start of the path or immediately after some `/`. -/
def ExcludedSpec (s : List Char) : Prop :=
  ExclHere s ∨ ∃ u w, s = u ++ '/' :: w ∧ ExclHere w

theorem isExcludedPath_iff (s : List Char) :
    isExcludedPath s = true ↔ ExcludedSpec s := by
  rw [isExcludedPath, exclScan_iff]
  simp [ExcludedSpec]

theorem hasScrapableExt_iff (s : List Char) :
    hasScrapableExt s = true ↔ ∃ e ∈ allowedExts, ∃ r, s = r ++ e := by
  unfold hasScrapableExt
  rw [List.any_eq_true]
  simp only [strEndsWith_iff]

/-- The claimed exclusion test: some `/`-separated segment of the path is
literally `node_modules` or literally `.git`. -/
def segmentExcluded (s : List Char) : Bool :=
  (s.splitOn '/').any (fun seg => seg == nodeModules || seg == ['.', 'g', 'i', 't'])

theorem scrapeStep_crawlSet (env : DriveEnv) (key : List Char) (q : CrawlQueue)
    (t : List Char) : (scrapeStep env key q t).crawlSet = q.crawlSet := by
  unfold scrapeStep
  cases env.readFile key t with
  | none => rfl
  | some text => exact addAll_crawlSet q (scrapeHyperAddresses text)

theorem foldl_scrapeStep_crawlSet (env : DriveEnv) (key : List Char)
    (ts : List (List Char)) (q : CrawlQueue) :
    (ts.foldl (scrapeStep env key) q).crawlSet = q.crawlSet := by
  induction ts generalizing q with
  | nil => rfl
  | cons t rest ih => rw [List.foldl_cons, ih, scrapeStep_crawlSet]

theorem crawlKey_crawlSet (env : DriveEnv) (key : List Char) (q : CrawlQueue) :
    (crawlKey env key q).crawlSet = q.crawlSet := by
  unfold crawlKey
  cases env.listEntries key with
  | none => rfl
  | some entries =>
    rw [addAll_crawlSet, foldl_scrapeStep_crawlSet]

theorem scrapeStep_inv (env : DriveEnv) (key : List Char) (q : CrawlQueue)
    (t : List Char) (h : QInv q) : QInv (scrapeStep env key q t) := by
  unfold scrapeStep
  cases env.readFile key t with
  | none => exact h
  | some text => exact addAll_inv q (scrapeHyperAddresses text) h

theorem foldl_scrapeStep_inv (env : DriveEnv) (key : List Char)
    (ts : List (List Char)) (q : CrawlQueue) (h : QInv q) :
    QInv (ts.foldl (scrapeStep env key) q) := by
  induction ts generalizing q with
  | nil => exact h
  | cons t rest ih => exact ih _ (scrapeStep_inv env key q t h)

theorem crawlKey_inv (env : DriveEnv) (key : List Char) (q : CrawlQueue)
    (h : QInv q) : QInv (crawlKey env key q) := by
  unfold crawlKey
  cases env.listEntries key with
  | none => exact h
  | some entries =>
    exact addAll_inv _ _ (foldl_scrapeStep_inv env key (filterScrapable entries) q h)

/-- A key `k` is discoverable while crawling `key` in environment `env`:
it is extracted from an address scraped out of some scrapable file of the
drive, or from some mount key of the drive. -/
def Discovered (env : DriveEnv) (key k : List Char) : Prop :=
  ∃ entries, env.listEntries key = some entries ∧
    ((∃ t ∈ filterScrapable entries, ∃ text, env.readFile key t = some text ∧
        ∃ uri ∈ scrapeHyperAddresses text, extractKey uri = some k) ∨
      ∃ m ∈ filterMounts env key entries, extractKey m = some k)

/-- Universe `U` contains every key discoverable from any drive of `env`. -/
def ClosedEnv (env : DriveEnv) (U : List (List Char)) : Prop :=
  ∀ key k, Discovered env key k → k ∈ U

theorem scrapeStep_queue_mem (env : DriveEnv) (key : List Char) (q : CrawlQueue)
    (t : List Char) (k : List Char) (hk : k ∈ (scrapeStep env key q t).queue) :
    k ∈ q.queue ∨ ∃ text, env.readFile key t = some text ∧
      ∃ uri ∈ scrapeHyperAddresses text, extractKey uri = some k := by
  unfold scrapeStep at hk
  cases ht : env.readFile key t with
  | none => rw [ht] at hk; exact Or.inl hk
  | some text =>
    rw [ht] at hk
    rcases addAll_queue_mem q _ k hk with h | ⟨uri, hu, hx⟩
    · exact Or.inl h
    · exact Or.inr ⟨text, rfl, uri, hu, hx⟩

theorem foldl_scrapeStep_queue_mem (env : DriveEnv) (key : List Char)
    (ts : List (List Char)) (q : CrawlQueue) (k : List Char)
    (hk : k ∈ (ts.foldl (scrapeStep env key) q).queue) :
    k ∈ q.queue ∨ ∃ t ∈ ts, ∃ text, env.readFile key t = some text ∧
      ∃ uri ∈ scrapeHyperAddresses text, extractKey uri = some k := by
  induction ts generalizing q with
  | nil => exact Or.inl hk
  | cons t rest ih =>
    rcases ih (scrapeStep env key q t) hk with h | ⟨t', ht', hx⟩
    · rcases scrapeStep_queue_mem env key q t k h with h' | hx
      · exact Or.inl h'
      · exact Or.inr ⟨t, List.mem_cons_self t rest, hx⟩
    · exact Or.inr ⟨t', List.mem_cons_of_mem t ht', hx⟩

theorem crawlKey_queue_mem (env : DriveEnv) (key : List Char) (q : CrawlQueue)
    (k : List Char) (hk : k ∈ (crawlKey env key q).queue) :
    k ∈ q.queue ∨ Discovered env key k := by
  unfold crawlKey at hk
  cases hl : env.listEntries key with
  | none => rw [hl] at hk; exact Or.inl hk
  | some entries =>
    rw [hl] at hk
    rcases addAll_queue_mem _ _ k hk with h | ⟨m, hm, hx⟩
    · rcases foldl_scrapeStep_queue_mem env key _ q k h with h2 | ⟨t, ht, hx⟩
      · exact Or.inl h2
      · exact Or.inr ⟨entries, hl, Or.inl ⟨t, ht, hx⟩⟩
    · exact Or.inr ⟨entries, hl, Or.inr ⟨m, hm, hx⟩⟩

/-- Number of keys of the candidate universe `U` not yet visited. -/
def countRemaining (U : List (List Char)) (q : CrawlQueue) : Nat :=
  (U.filter (fun k => !q.crawlSet.contains k)).length

theorem filter_length_lt {α : Type} (l : List α) (p p2 : α → Bool)
    (himp : ∀ a, p2 a = true → p a = true) (x : α) (hx : x ∈ l)
    (hpx : p x = true) (hpx2 : p2 x = false) :
    (l.filter p2).length < (l.filter p).length := by
  have hcomm : ∀ m : List α, m.filter p2 = (m.filter p).filter p2 := by
    intro m
    induction m with
    | nil => rfl
    | cons a l ih =>
      by_cases h2 : p2 a = true
      · rw [List.filter_cons_of_pos h2, List.filter_cons_of_pos (himp a h2),
          List.filter_cons_of_pos h2, ih]
      · rw [List.filter_cons_of_neg (by simpa using h2)]
        by_cases h1 : p a = true
        · rw [List.filter_cons_of_pos h1, List.filter_cons_of_neg (by simpa using h2), ih]
        · rw [List.filter_cons_of_neg (by simpa using h1), ih]
  rw [hcomm l]
  have hsub : ((l.filter p).filter p2).Sublist (l.filter p) := List.filter_sublist _
  rcases Nat.lt_or_ge ((l.filter p).filter p2).length (l.filter p).length with h | h
  · exact h
  · exfalso
    have heq : (l.filter p).filter p2 = l.filter p :=
      hsub.eq_of_length (Nat.le_antisymm hsub.length_le h)
    have hxmem : x ∈ l.filter p := List.mem_filter.mpr ⟨hx, hpx⟩
    rw [← heq] at hxmem
    have := (List.mem_filter.mp hxmem).2
    rw [hpx2] at this
    exact absurd this (by simp)

theorem countRemaining_drain {q : CrawlQueue} {key : List Char} {q2 : CrawlQueue}
    (h : drain q = some (key, q2)) (U : List (List Char))
    (hq : QInv q) (hU : key ∈ U) :
    countRemaining U q2 < countRemaining U q := by
  obtain ⟨-, hmem, -⟩ := drain_spec h
  have hkq : key ∈ q.queue := drain_key_mem_queue h
  have hknot : key ∉ q.crawlSet := hq.2.2 key hkq
  refine filter_length_lt U _ _ ?_ key hU ?_ ?_
  · intro a ha
    simp only [Bool.not_eq_true', ← Bool.not_eq_true, contains_iff] at ha ⊢
    intro hc
    exact ha ((hmem a).mpr (Or.inl hc))
  · simp only [Bool.not_eq_true', ← Bool.not_eq_true, contains_iff]
    exact hknot
  · have hin : key ∈ q2.crawlSet := (hmem key).mpr (Or.inr rfl)
    simp [contains_iff, hin]

/-- Fuelled crawl-loop termination: with every queued key inside a finite
candidate universe `U` that is closed under discovery, the loop empties the
frontier once the fuel exceeds the number of unvisited `U`-keys. -/
theorem crawlLoop_terminates (env : DriveEnv) (U : List (List Char)) :
    ∀ (fuel : Nat) (q : CrawlQueue), QInv q → (∀ k ∈ q.queue, k ∈ U) →
      ClosedEnv env U → countRemaining U q < fuel →
      (crawlLoop env fuel q).queue = [] := by
  intro fuel
  induction fuel with
  | zero => intro q _ _ _ h; omega
  | succ fuel ih =>
    intro q hinv hsub hcl hcount
    unfold crawlLoop
    cases hd : drain q with
    | none => exact (drain_none_iff q).mp hd
    | some r =>
      obtain ⟨key, q2⟩ := r
      have hkeyU : key ∈ U := hsub key (drain_key_mem_queue hd)
      have hinv2 : QInv q2 := drain_inv hd hinv
      have hcount2 : countRemaining U q2 < countRemaining U q :=
        countRemaining_drain hd U hinv hkeyU
      have hq2sub : ∀ k ∈ q2.queue, k ∈ U := by
        intro k hk
        obtain ⟨hqq, -, -⟩ := drain_spec hd
        exact hsub k (by rw [hqq]; exact List.mem_append_left _ hk)
      apply ih
      · exact crawlKey_inv env key q2 hinv2
      · intro k hk
        rcases crawlKey_queue_mem env key q2 k hk with h | h
        · exact hq2sub k h
        · exact hcl key k h
      · exact hcl
      · calc countRemaining U (crawlKey env key q2) = countRemaining U q2 := by
              unfold countRemaining
              rw [crawlKey_crawlSet]
          _ < fuel := by omega

/-- A bare 64-character lowercase-hex key passes `extractKey` unchanged:
it cannot start with `hyper:` (`h` is not a hex character), `slice(0, 64)`
returns it whole, and it validates. -/
theorem extractKey_bare (k : List Char) (h : matchesExactHex64 k = true) :
    extractKey k = some k := by
  have h2 := h
  unfold matchesExactHex64 at h2
  rw [Bool.and_eq_true, beq_iff_eq] at h2
  obtain ⟨hlen, hall⟩ := h2
  have hns : ¬ strStartsWith hyperScheme k = true := by
    intro hc
    obtain ⟨r, rfl⟩ := (strStartsWith_iff _ _).mp hc
    rw [List.all_append] at hall
    have hh := (Bool.and_eq_true _ _).mp hall
    exact absurd hh.1 (by decide)
  have ht : k.take 64 = k := by
    rw [← hlen]
    exact List.take_length k
  simp only [extractKey, if_neg hns, ht, if_pos h]

/-- History invariant of the `CrawlQueue` under any sequence of `add` and
drain operations starting from a state satisfying `QInv`: the invariant is
maintained, the drained keys are pairwise distinct, and none of them was
already visited at the start. -/
theorem runOpsTrace_props : ∀ (ops : List QOp) (q : CrawlQueue), QInv q →
    QInv (runOpsTrace q ops).1 ∧ (runOpsTrace q ops).2.Nodup ∧
      ∀ k ∈ (runOpsTrace q ops).2, k ∉ q.crawlSet := by
  intro ops
  induction ops with
  | nil => intro q h; exact ⟨h, List.nodup_nil, by simp [runOpsTrace]⟩
  | cons op ops ih =>
    intro q h
    cases op with
    | add uris =>
      obtain ⟨h1, h2, h3⟩ := ih (addAll q uris).1 (addAll_inv q uris h)
      simp only [runOpsTrace]
      refine ⟨h1, h2, ?_⟩
      intro k hk
      have hn := h3 k hk
      rwa [addAll_crawlSet] at hn
    | drainOp =>
      simp only [runOpsTrace]
      cases hd : drain q with
      | none => exact ih q h
      | some r =>
        obtain ⟨key, q1⟩ := r
        obtain ⟨h1, h2, h3⟩ := ih q1 (drain_inv hd h)
        obtain ⟨hqq, hmem, -⟩ := drain_spec hd
        refine ⟨h1, ?_, ?_⟩
        · rw [List.nodup_cons]
          exact ⟨fun hkey => h3 key hkey ((hmem key).mpr (Or.inr rfl)), h2⟩
        · intro k hk
          rcases List.mem_cons.mp hk with rfl | hk
          · exact h.2.2 k (drain_key_mem_queue hd)
          · intro hkc
            exact h3 k hk ((hmem k).mpr (Or.inl hkc))

theorem crawlKey_listFail (env : DriveEnv) (key : List Char) (q : CrawlQueue)
    (h : env.listEntries key = none) : crawlKey env key q = q := by
  unfold crawlKey
  rw [h]

theorem scrapeStep_readFail (env : DriveEnv) (key t : List Char) (q : CrawlQueue)
    (h : env.readFile key t = none) : scrapeStep env key q t = q := by
  unfold scrapeStep
  rw [h]

theorem scrapeEntry_readFail (env : DriveEnv) (key entry : List Char) (st : PState)
    (h : env.readFile key entry = none) : scrapeEntry env key st entry = st := by
  unfold scrapeEntry
  rw [h]

theorem crawlLoop_step (env : DriveEnv) (fuel : Nat) (q q1 : CrawlQueue)
    (key : List Char) (h : drain q = some (key, q1)) :
    crawlLoop env (fuel + 1) q = crawlLoop env fuel (crawlKey env key q1) := by
  conv_lhs => rw [crawlLoop]
  rw [h]

theorem mem_setAdd (l : List (List Char)) (key : List Char) :
    key ∈ (if l.contains key then l else l ++ [key]) := by
  by_cases hc : key ∈ l <;> simp [hc]

/-- The daemon variant records the key into `crawled` in its `finally`
block, whatever happened during the crawl. -/
theorem crawlHyper_records (env : DriveEnv) (key : List Char) (st : PState) :
    key ∈ (crawlHyper env key st).crawled := by
  unfold crawlHyper
  exact mem_setAdd _ key

/-- The daemon variant on a key whose listing fails: the queue is untouched
(zero keys added), only `crawled` gains the key. -/
theorem crawlHyper_listFail (env : DriveEnv) (key : List Char) (st : PState)
    (h : env.listEntries key = none) :
    (crawlHyper env key st).queue = st.queue ∧
      (crawlHyper env key st).crawled =
        (if st.crawled.contains key then st.crawled else st.crawled ++ [key]) := by
  unfold crawlHyper
  rw [h]
  exact ⟨rfl, rfl⟩

/-- Modelled from the claim wording of `normalizeKey`: the scheme test
demands the full 8-character `hyper://` marker before using `slice(8, 72)`
(the implementation instead tests only the 6-character `hyper:` prefix).
Used solely to compare the claimed behaviour with `extractKey`. -/
def extractKeySpec (uri : List Char) : Option (List Char) :=
  let key := if strStartsWith hyperMarker uri then (uri.drop 8).take 64
             else uri.take 64
  if matchesExactHex64 key then some key else none

theorem matchesExactHex64_iff (s : List Char) :
    matchesExactHex64 s = true ↔ s.length = 64 ∧ s.all isLowerHex = true := by
  simp [matchesExactHex64]

theorem scrapeHyperAddresses_pos (s : List Char) (h : isHyperMatch s = true) :
    scrapeHyperAddresses s = s.take 72 :: scrapeHyperAddresses (s.drop 72) := by
  cases s with
  | nil => exact absurd h (by decide)
  | cons c cs => rw [scrapeHyperAddresses_cons, if_pos h]

theorem filterMounts_envCycle (key : List Char) :
    filterMounts envCycle key [pathMd] = [] := rfl

theorem closedEnvCycle : ClosedEnv envCycle [keyA, keyB] := by
  intro key k hd
  obtain ⟨entries, hl, hcase⟩ := hd
  by_cases hAB : key = keyA ∨ key = keyB
  · have hent : entries = [pathMd] := by
      simp only [envCycle, if_pos hAB] at hl
      exact (Option.some.inj hl).symm
    subst hent
    rcases hcase with ⟨t, ht, text, hr, uri, hu, hx⟩ | ⟨m, hm, -⟩
    · have hfs : filterScrapable [pathMd] = [pathMd] := by decide
      rw [hfs] at ht
      simp only [List.mem_singleton] at ht
      subst ht
      rcases hAB with rfl | rfl
      · have hrf : envCycle.readFile keyA pathMd = some (hyperMarker ++ keyB) := by decide
        rw [hrf] at hr
        obtain ⟨rfl⟩ := Option.some.inj hr
        have hsc : scrapeHyperAddresses (hyperMarker ++ keyB) = [hyperMarker ++ keyB] := by
          decide
        rw [hsc] at hu
        simp only [List.mem_singleton] at hu
        subst hu
        have hek : extractKey (hyperMarker ++ keyB) = some keyB := by decide
        rw [hek] at hx
        obtain ⟨rfl⟩ := Option.some.inj hx
        simp
      · have hrf : envCycle.readFile keyB pathMd = some (hyperMarker ++ keyA) := by decide
        rw [hrf] at hr
        obtain ⟨rfl⟩ := Option.some.inj hr
        have hsc : scrapeHyperAddresses (hyperMarker ++ keyA) = [hyperMarker ++ keyA] := by
          decide
        rw [hsc] at hu
        simp only [List.mem_singleton] at hu
        subst hu
        have hek : extractKey (hyperMarker ++ keyA) = some keyA := by decide
        rw [hek] at hx
        obtain ⟨rfl⟩ := Option.some.inj hx
        simp
    · rw [filterMounts_envCycle] at hm
      exact absurd hm (List.not_mem_nil m)
  · simp only [envCycle, if_neg hAB] at hl
    exact absurd hl (by simp)

theorem extractKey_eq_some_iff (uri k : List Char) :
    extractKey uri = some k ↔
      k = (if strStartsWith hyperScheme uri then (uri.drop 8).take 64
           else uri.take 64) ∧ matchesExactHex64 k = true := by
  simp only [extractKey]
  by_cases hv : matchesExactHex64 (if strStartsWith hyperScheme uri then
      (uri.drop 8).take 64 else uri.take 64) = true
  · rw [if_pos hv]
    constructor
    · intro h
      obtain ⟨rfl⟩ := Option.some.inj h
      exact ⟨rfl, hv⟩
    · rintro ⟨rfl, -⟩
      rfl
  · rw [if_neg hv]
    constructor
    · intro h
      exact absurd h (by simp)
    · rintro ⟨rfl, hk⟩
      exact absurd hk hv

/-- C4 (amended): `extractKey` tests only the 6-character `hyper:` scheme
prefix — not the full `hyper://` marker — and when it matches takes the 64
characters at offsets 8–71 (`slice(8, 72)`); otherwise it takes the first 64
characters verbatim.  The candidate is accepted exactly when it is 64
lowercase hexadecimal characters, so an all-uppercase 64-hex-character input
yields the invalid marker (null). -/
theorem C4_extractKey :
    (∀ uri k : List Char, extractKey uri = some k ↔
      (((strStartsWith hyperScheme uri = true ∧ k = (uri.drop 8).take 64) ∨
          (strStartsWith hyperScheme uri = false ∧ k = uri.take 64)) ∧
        k.length = 64 ∧ k.all isLowerHex = true)) ∧
      extractKey (List.replicate 64 'A') = none := by
  constructor
  · intro uri k
    rw [extractKey_eq_some_iff, matchesExactHex64_iff]
    by_cases hs : strStartsWith hyperScheme uri = true
    · simp [hs]
    · simp only [Bool.not_eq_true] at hs
      simp [hs]
  · decide

/-- An input on which the implementation and the claimed `hyper://` rule
disagree: `hyper:ab` followed by 64 `f`s. -/
def uriSchemeOnly : List Char :=
  ['h', 'y', 'p', 'e', 'r', ':', 'a', 'b'] ++ List.replicate 64 'f'

/-- C4 counterexample: on `"hyper:ab" ++ "f"*64` — which starts with
`hyper:` but NOT with `hyper://` — the implementation still slices
characters 8–71 and returns the valid key `"f"*64`, while the claimed rule
(full `hyper://` marker, else first 64 characters verbatim) yields null. -/
theorem C4_counterexample :
    extractKey uriSchemeOnly = some (List.replicate 64 'f') ∧
      extractKeySpec uriSchemeOnly = none := by decide

/-- C8: `add(k, k)` with one valid bare key on the empty frontier queues it
once (count 1, frontier `[k]`); re-adding a key already in `visited` returns
count 0 and leaves the whole state unchanged; and in general the returned
count is exactly the number of keys actually newly queued. -/
theorem C8_add_semantics :
    (∀ k : List Char, matchesExactHex64 k = true →
      (addAll emptyQueue [k, k]).2 = 1 ∧ (addAll emptyQueue [k, k]).1.queue = [k]) ∧
    (∀ (q : CrawlQueue) (k : List Char), matchesExactHex64 k = true →
      k ∈ q.crawlSet → addAll q [k] = (q, 0)) ∧
    (∀ (q : CrawlQueue) (uris : List (List Char)),
      (addAll q uris).1.queue.length = q.queue.length + (addAll q uris).2) := by
  refine ⟨?_, ?_, addAll_queue_length⟩
  · intro k hk
    have he := extractKey_bare k hk
    simp [addAll, addOne, he, emptyQueue]
  · intro q k hk hmem
    have he := extractKey_bare k hk
    by_cases hq : k ∈ q.queue
    · simp [addAll, addOne, he, hq]
    · simp [addAll, addOne, he, hq, hmem]

/-- C8 witness: the two concrete scenarios at the key `"a"*64`, the second
in the state reached after draining that key. -/
theorem C8_witness :
    ((addAll emptyQueue [keyA, keyA]).2 = 1 ∧
        (addAll emptyQueue [keyA, keyA]).1.queue = [keyA]) ∧
      addAll ⟨[keyA], []⟩ [keyA] = (⟨[keyA], []⟩, 0) :=
  ⟨C8_add_semantics.1 keyA (by decide),
    C8_add_semantics.2.1 ⟨[keyA], []⟩ keyA (by decide) (by decide)⟩

/-- C10: `add` never touches the visited set, in either variant — the
`#crawlSet` of the `CrawlQueue` and the global `crawled` set of the daemon
variant are unchanged by any `add`/`addQueue` call. -/
theorem C10_add_frame :
    (∀ (q : CrawlQueue) (uris : List (List Char)),
        (addAll q uris).1.crawlSet = q.crawlSet) ∧
    (∀ (st : PState) (uris : List (List Char)),
        (addQueue st uris).1.crawled = st.crawled) := by
  refine ⟨addAll_crawlSet, ?_⟩
  intro st uris
  exact addAll_crawlSet ⟨st.crawled, st.queue⟩ uris

/-- C1 (amended): in the `CrawlQueue` variant (src/index.js), under every
sequence of `add` and drain operations from the empty frontier, `pending`
stays duplicate-free and disjoint from `visited`, and the drained keys are
pairwise distinct — every key is dequeued and crawled at most once, also
when a drive's content contains its own address.  In the daemon variant the
key is recorded visited only when its crawl completes (in the `finally`
block), so a drive whose content contains its own address is re-queued
during its own crawl and is dequeued and crawled exactly twice. -/
theorem C1_frontier_invariant :
    (∀ ops : List QOp,
      (runOpsTrace emptyQueue ops).1.queue.Nodup ∧
        (∀ k ∈ (runOpsTrace emptyQueue ops).1.queue,
          k ∉ (runOpsTrace emptyQueue ops).1.crawlSet) ∧
        (runOpsTrace emptyQueue ops).2.Nodup) ∧
      (exhaustQueue envSelf 5 ⟨[], [keyA]⟩).2 = [keyA, keyA] := by
  constructor
  · intro ops
    obtain ⟨⟨h1, h2, h3⟩, h4, -⟩ := runOpsTrace_props ops emptyQueue
      ⟨List.nodup_nil, List.nodup_nil, by simp [emptyQueue]⟩
    exact ⟨h1, h3, h4⟩
  · decide

/-- C1 counterexample: in the daemon variant, on the self-referencing drive
`A`, after the first drain-and-crawl step the key `A` is simultaneously in
`queue` (pending) and in `crawled` (visited) — `pending ∩ visited ≠ ∅` —
and the full run dequeues and crawls `A` twice, refuting the claim that the
invariant and at-most-once visitation hold in both variants. -/
theorem C1_counterexample :
    (exhaustQueue envSelf 1 ⟨[], [keyA]⟩).1.queue = [keyA] ∧
      (exhaustQueue envSelf 1 ⟨[], [keyA]⟩).1.crawled = [keyA] ∧
      (exhaustQueue envSelf 5 ⟨[], [keyA]⟩).2 = [keyA, keyA] := by decide

/-- C2: per-item failure tolerance.  A key whose listing fails leaves the
frontier state completely unchanged (zero keys added); every drained key is
in `visited` immediately (so it is never retried); the loop on a failing key
simply continues draining the remaining frontier; a file whose read fails
contributes nothing (in both variants: `scrapeStep` is the per-target body
of `pleco`, `scrapeEntry` the per-entry body of the daemon's `crawlHyper`);
and in the daemon variant a failing key likewise adds nothing to the queue
and is still recorded into `crawled`. -/
theorem C2_failure_tolerance :
    (∀ (env : DriveEnv) (key : List Char) (q : CrawlQueue),
        env.listEntries key = none → crawlKey env key q = q) ∧
    (∀ (q q2 : CrawlQueue) (key : List Char),
        drain q = some (key, q2) → key ∈ q2.crawlSet) ∧
    (∀ (env : DriveEnv) (fuel : Nat) (q q2 : CrawlQueue) (key : List Char),
        drain q = some (key, q2) → env.listEntries key = none →
        crawlLoop env (fuel + 1) q = crawlLoop env fuel q2) ∧
    (∀ (env : DriveEnv) (key t : List Char) (q : CrawlQueue),
        env.readFile key t = none → scrapeStep env key q t = q) ∧
    (∀ (env : DriveEnv) (key entry : List Char) (st : PState),
        env.readFile key entry = none → scrapeEntry env key st entry = st) ∧
    (∀ (env : DriveEnv) (key : List Char) (st : PState),
        env.listEntries key = none →
        (crawlHyper env key st).queue = st.queue ∧
          key ∈ (crawlHyper env key st).crawled) := by
  refine ⟨crawlKey_listFail, fun q q2 key h => drain_key_mem_crawlSet h, ?_,
    scrapeStep_readFail, scrapeEntry_readFail, ?_⟩
  · intro env fuel q q2 key hd hl
    rw [crawlLoop_step env fuel q q2 key hd, crawlKey_listFail env key q2 hl]
  · intro env key st hl
    exact ⟨(crawlHyper_listFail env key st hl).1, crawlHyper_records env key st⟩

/-- C2 witness: the unreachable drive `"c"*64` in the synthetic cycle
environment — its listing and reads fail, and each clause of the theorem is
instantiated there. -/
theorem C2_witness :
    crawlKey envCycle keyC ⟨[keyC], []⟩ = ⟨[keyC], []⟩ ∧
      keyC ∈ (⟨[keyC], []⟩ : CrawlQueue).crawlSet ∧
      crawlLoop envCycle 1 ⟨[], [keyC]⟩ = crawlLoop envCycle 0 ⟨[keyC], []⟩ ∧
      scrapeStep envCycle keyC ⟨[], []⟩ pathMd = ⟨[], []⟩ ∧
      scrapeEntry envCycle keyC ⟨[], []⟩ pathMd = ⟨[], []⟩ ∧
      (crawlHyper envCycle keyC ⟨[], []⟩).queue = [] ∧
      keyC ∈ (crawlHyper envCycle keyC ⟨[], []⟩).crawled := by
  obtain ⟨t1, t2, t3, t4, t5, t6⟩ := C2_failure_tolerance
  have hl : envCycle.listEntries keyC = none := by decide
  have hr : envCycle.readFile keyC pathMd = none := by decide
  have hd : drain ⟨[], [keyC]⟩ = some (keyC, ⟨[keyC], []⟩) := by decide
  exact ⟨t1 envCycle keyC _ hl, t2 _ _ keyC hd, t3 envCycle 0 _ _ keyC hd hl,
    t4 envCycle keyC pathMd _ hr, t5 envCycle keyC pathMd _ hr,
    (t6 envCycle keyC _ hl).1, (t6 envCycle keyC _ hl).2⟩

/-- C3: termination.  Generally, whenever every queued key lies in a finite
candidate universe closed under discovery, the crawl loop reaches the empty
frontier with fuel exceeding the number of unvisited candidates; and on the
concrete two-drive cycle (drive `A` references `B`, drive `B` references
`A`) the crawl seeded with `hyper://A` visits exactly `A` and `B`, each
once, and terminates with the frontier empty. -/
theorem C3_termination :
    (∀ (env : DriveEnv) (U : List (List Char)) (fuel : Nat) (q : CrawlQueue),
        QInv q → (∀ k ∈ q.queue, k ∈ U) → ClosedEnv env U →
        countRemaining U q < fuel → (crawlLoop env fuel q).queue = []) ∧
    ((crawlLoop envCycle 3 (addAll emptyQueue [hyperMarker ++ keyA]).1).queue = [] ∧
      (crawlLoop envCycle 3 (addAll emptyQueue [hyperMarker ++ keyA]).1).crawlSet =
        [keyA, keyB]) := by
  exact ⟨fun env U fuel q h1 h2 h3 h4 => crawlLoop_terminates env U fuel q h1 h2 h3 h4,
    by decide, by decide⟩

/-- C3 witness: the general termination statement applied to the concrete
cycle environment with universe `[A, B]`, fuel `3`, and the seeded
frontier. -/
theorem C3_witness :
    (crawlLoop envCycle 3 (addAll emptyQueue [hyperMarker ++ keyA]).1).queue = [] :=
  C3_termination.1 envCycle [keyA, keyB] 3 (addAll emptyQueue [hyperMarker ++ keyA]).1
    ⟨by decide, by decide, by decide⟩ (by decide) closedEnvCycle (by decide)

/-- The spec's concrete scraping example text. -/
def exampleText : List Char :=
  "see hyper://".toList ++ List.replicate 64 'f' ++ " and junk hyper://short".toList

/-- C5: `scrapeAddresses` returns exactly the non-overlapping occurrences of
`hyper://` followed by exactly 64 lowercase hex characters: every reported
match is such a 72-character occurrence in the text at its reported
position, the positions are strictly left-to-right and at least 72 apart,
every position where the pattern occurs is covered by a reported match, and
duplicates are preserved (the output is the per-position map).  On the
spec's example the single full match is returned and `hyper://short` is
ignored. -/
theorem C5_scrape_addresses :
    (∀ s : List Char,
      scrapeHyperAddresses s = (scrapePositions s).map (fun p => (s.drop p).take 72) ∧
        (∀ p ∈ scrapePositions s, ∃ hex rest, s.drop p = hyperMarker ++ hex ++ rest ∧
          hex.length = 64 ∧ hex.all isLowerHex = true) ∧
        (scrapePositions s).Pairwise (fun a b => a + 72 ≤ b) ∧
        (∀ p, (∃ hex rest, s.drop p = hyperMarker ++ hex ++ rest ∧
            hex.length = 64 ∧ hex.all isLowerHex = true) →
          ∃ q ∈ scrapePositions s, q ≤ p ∧ p < q + 72)) ∧
      scrapeHyperAddresses exampleText = [hyperMarker ++ List.replicate 64 'f'] := by
  constructor
  · intro s
    obtain ⟨h1, h2, h3, h4⟩ := scrape_props s.length s (Nat.le_refl _)
    exact ⟨h1, fun p hp => (isHyperMatch_iff _).mp (h2 p hp), h3,
      fun p hp => h4 p ((isHyperMatch_iff _).mpr hp)⟩
  · decide

/-- C6 (amended): `filterScrapable` keeps exactly the entries with an
allow-listed extension that do not match the exclusion pattern
`(^|\/)(node_modules|.git)` — in which the dot is an unescaped
regular-expression dot and no segment end is checked: a path is excluded
exactly when `node_modules`, or one dot-matchable character (any single
character except the line terminators LF, CR, U+2028, U+2029 and the
supplementary plane) followed by `git`, occurs as a prefix at the start of
the path or immediately after some `/`.  The claim's own examples hold:
`a/node_modules/b.js` and `node_modules/b.js` are excluded, `b.js` is kept;
and since the dot does not match a line feed, the path `a/` + LF + `git.js`
is kept. -/
theorem C6_scrape_policy :
    (∀ s, isExcludedPath s = true ↔ ExcludedSpec s) ∧
    (∀ s, hasScrapableExt s = true ↔ ∃ e ∈ allowedExts, ∃ r, s = r ++ e) ∧
    (∀ entries, filterScrapable entries =
        entries.filter (fun e => hasScrapableExt e && !isExcludedPath e)) ∧
    filterScrapable
        ["a/node_modules/b.js".toList, "node_modules/b.js".toList, "b.js".toList] =
      ["b.js".toList] ∧
    filterScrapable [['a', '/', '\n', 'g', 'i', 't', '.', 'j', 's']] =
      [['a', '/', '\n', 'g', 'i', 't', '.', 'j', 's']] := by
  refine ⟨isExcludedPath_iff, hasScrapableExt_iff, ?_, by decide, by decide⟩
  intro entries
  unfold filterScrapable
  rw [List.filter_filter]

/-- C6 counterexample: the path `agit.md` has no segment equal to
`node_modules` or `.git` and has an allow-listed extension, so the claim
says it is kept — but the unescaped dot in `.git` makes the exclusion
pattern match (`a` + `git` at the start), and `filterScrapable` drops it. -/
theorem C6_counterexample :
    segmentExcluded ['a', 'g', 'i', 't', '.', 'm', 'd'] = false ∧
      hasScrapableExt ['a', 'g', 'i', 't', '.', 'm', 'd'] = true ∧
      filterScrapable [['a', 'g', 'i', 't', '.', 'm', 'd']] = [] := by decide

/-- C7 (amended): in the `CrawlQueue` variant the draining step removes and
returns the most recently added pending key (the last element of the array,
LIFO) and records it into `visited` immediately, before any crawling work;
drain reports frontier-empty exactly when `pending` is empty.  In the daemon
variant the pop is likewise LIFO, but the key is recorded into `crawled`
only when `crawlHyper` finishes (its `finally` block), not before the
crawling work begins. -/
theorem C7_drain_order :
    (∀ (q : CrawlQueue) (key : List Char) (q2 : CrawlQueue),
        drain q = some (key, q2) →
        q.queue = q2.queue ++ [key] ∧ key ∈ q2.crawlSet) ∧
    (∀ q : CrawlQueue, drain q = none ↔ q.queue = []) ∧
    (∀ (env : DriveEnv) (key : List Char) (st : PState),
        key ∈ (crawlHyper env key st).crawled) := by
  exact ⟨fun q key q2 h => ⟨(drain_spec h).1, drain_key_mem_crawlSet h⟩,
    drain_none_iff, crawlHyper_records⟩

/-- C7 witness: draining the one-key frontier `["a"*64]` returns that key,
leaves the queue empty, and has already recorded the key as visited. -/
theorem C7_witness :
    ((⟨[], [keyA]⟩ : CrawlQueue).queue = (⟨[keyA], []⟩ : CrawlQueue).queue ++ [keyA] ∧
        keyA ∈ (⟨[keyA], []⟩ : CrawlQueue).crawlSet) ∧
      keyA ∈ (crawlHyper envSelf keyA ⟨[], []⟩).crawled :=
  ⟨C7_drain_order.1 ⟨[], [keyA]⟩ keyA ⟨[keyA], []⟩ (by decide),
    C7_drain_order.2.2 envSelf keyA ⟨[], []⟩⟩

/-- C7 counterexample: in the daemon variant the drained key is NOT in the
visited set while its crawling work runs: crawling the self-referencing
drive `A` re-accepts `A` into the queue (which the `crawled` check would
have blocked had the key been recorded before the work), so after the first
step the queue holds `A` again instead of being empty. -/
theorem C7_counterexample :
    (exhaustQueue envSelf 1 ⟨[], [keyA]⟩).1.queue = [keyA] ∧
      (crawlHyper envSelf keyA ⟨[], []⟩).queue = [keyA] := by decide

/-- C9: a run of more than 64 lowercase hex characters after `hyper://` is
truncated, not rejected: the scraper still emits `hyper://` plus the first
64 of those characters as its first match, and that truncated prefix passes
`extractKey` as a syntactically valid key. -/
theorem C9_overlong_hex (hex rest : List Char) (h65 : 65 ≤ hex.length)
    (hall : hex.all isLowerHex = true) :
    (∃ tail, scrapeHyperAddresses (hyperMarker ++ (hex ++ rest)) =
        (hyperMarker ++ hex.take 64) :: tail) ∧
      extractKey (hyperMarker ++ hex.take 64) = some (hex.take 64) := by
  have htk : (hex.take 64).length = 64 := by
    rw [List.length_take]
    omega
  have htall : (hex.take 64).all isLowerHex = true := by
    rw [List.all_eq_true] at hall ⊢
    exact fun x hx => hall x (List.mem_of_mem_take hx)
  have hdecomp : hyperMarker ++ (hex ++ rest) =
      hyperMarker ++ hex.take 64 ++ (hex.drop 64 ++ rest) := by
    rw [List.append_assoc, ← List.append_assoc (hex.take 64), List.take_append_drop]
  constructor
  · have hmatch : isHyperMatch (hyperMarker ++ (hex ++ rest)) = true :=
      (isHyperMatch_iff _).mpr ⟨hex.take 64, hex.drop 64 ++ rest, hdecomp, htk, htall⟩
    have hlen72 : (hyperMarker ++ hex.take 64).length = 72 := by
      rw [List.length_append, htk]
      rfl
    refine ⟨scrapeHyperAddresses ((hyperMarker ++ (hex ++ rest)).drop 72), ?_⟩
    rw [scrapeHyperAddresses_pos _ hmatch]
    refine congrArg (fun m => m :: scrapeHyperAddresses _) ?_
    rw [hdecomp, ← hlen72, List.take_left]
  · have hs : strStartsWith hyperScheme (hyperMarker ++ hex.take 64) = true :=
      (strStartsWith_iff _ _).mpr ⟨['/', '/'] ++ hex.take 64, rfl⟩
    rw [extractKey_eq_some_iff]
    refine ⟨?_, (matchesExactHex64_iff _).mpr ⟨htk, htall⟩⟩
    rw [if_pos hs]
    have hdrop : (hyperMarker ++ hex.take 64).drop 8 = hex.take 64 :=
      List.drop_left hyperMarker (hex.take 64)
    rw [hdrop]
    simp [List.take_take]

/-- C9 witness: 65 consecutive `f`s after `hyper://` yield the truncated
64-`f` key. -/
theorem C9_witness :
    (∃ tail, scrapeHyperAddresses (hyperMarker ++ (List.replicate 65 'f' ++ [])) =
        (hyperMarker ++ (List.replicate 65 'f').take 64) :: tail) ∧
      extractKey (hyperMarker ++ (List.replicate 65 'f').take 64) =
        some ((List.replicate 65 'f').take 64) :=
  C9_overlong_hex (List.replicate 65 'f') [] (by decide) (by decide)

/-- C1 witness: the invariant bundle instantiated on the concrete operation
sequence add `"a"*64` then drain. -/
theorem C1_witness :
    (runOpsTrace emptyQueue [QOp.add [keyA], QOp.drainOp]).2.Nodup :=
  (C1_frontier_invariant.1 [QOp.add [keyA], QOp.drainOp]).2.2

/-- C4 witness: the characterization instantiated at `hyper://` + `"a"*64`. -/
theorem C4_witness :
    extractKey (hyperMarker ++ keyA) = some keyA ↔
      (((strStartsWith hyperScheme (hyperMarker ++ keyA) = true ∧
            keyA = ((hyperMarker ++ keyA).drop 8).take 64) ∨
          (strStartsWith hyperScheme (hyperMarker ++ keyA) = false ∧
            keyA = (hyperMarker ++ keyA).take 64)) ∧
        keyA.length = 64 ∧ keyA.all isLowerHex = true) :=
  C4_extractKey.1 (hyperMarker ++ keyA) keyA

/-- C5 witness: the per-position map equation instantiated at the spec's
example text. -/
theorem C5_witness :
    scrapeHyperAddresses exampleText =
      (scrapePositions exampleText).map (fun p => (exampleText.drop p).take 72) :=
  (C5_scrape_addresses.1 exampleText).1

/-- C6 witness: the filter equation instantiated at the singleton listing
`["b.js"]`. -/
theorem C6_witness :
    filterScrapable [['b', '.', 'j', 's']] =
      [['b', '.', 'j', 's']].filter (fun e => hasScrapableExt e && !isExcludedPath e) :=
  C6_scrape_policy.2.2.1 [['b', '.', 'j', 's']]

/-- C10 witness: both frame conditions instantiated at concrete states. -/
theorem C10_witness :
    (addAll emptyQueue [keyA]).1.crawlSet = emptyQueue.crawlSet ∧
      (addQueue ⟨[keyA], []⟩ [keyB]).1.crawled = (⟨[keyA], []⟩ : PState).crawled :=
  ⟨C10_add_frame.1 emptyQueue [keyA], C10_add_frame.2 ⟨[keyA], []⟩ [keyB]⟩
